import Mathlib

/-!
Shallow embedding of `sync_dayscedule.py` (DaySchedule booking sync).

The embedding translates the pure core of the script into Lean:
string transformations and the two fixed regular expressions of
`BookingProcessor.extract_store_name`, the normaliser
`BookingProcessor.clean_booking_data`, the snapshot loader
`load_existing_data`, the index builder `create_booking_map`, the
per-summary reconciliation decision `fetch_with_semaphore`, the batch
driver `process_booking_batch` and the run driver `process_bookings`.
Network and file effects are abstracted: the detail fetch becomes an
oracle `Option String → Option RawDetail` (a `none` result models a
non-200 status or a transport error, both of which the Python code
converts to `None`), and the state of the snapshot file becomes the
inductive `FileState`.  Python exceptions that escape a function are
modelled by an `Option` result being `none`.

Scope notes on the string model: Python `str.lower`, `str.title`,
`str.strip` and `Char` classification are modelled for ASCII text,
which is the alphabet of every string the script manipulates.
-/

namespace SyncDayschedule

/-- Constant `MAX_CONCURRENT_REQUESTS = 5` (line 19 of the source). -/
def MAX_CONCURRENT_REQUESTS : Nat := 5

/-- Python `str.lower`, per-character (ASCII scope). -/
def pyLower (s : String) : String := String.mk (s.data.map Char.toLower)

/-- Python `str.strip`: drop whitespace from both ends. -/
def pyStrip (s : String) : String :=
  String.mk (((s.data.dropWhile Char.isWhitespace).reverse.dropWhile Char.isWhitespace).reverse)

/-- Worker for Python `str.title`: the Bool records whether the previous
character was a letter (a cased character); each letter starting a run is
upper-cased and the rest of the run lower-cased. -/
def titleAux : Bool → List Char → List Char
  | _, [] => []
  | prevAlpha, c :: rest =>
    if c.isAlpha then
      (if prevAlpha then c.toLower else c.toUpper) :: titleAux true rest
    else
      c :: titleAux false rest

/-- Python `str.title` (ASCII scope). -/
def pyTitle (l : List Char) : List Char := titleAux false l

/-- Transform `store_name.replace('-', ' ')` (line 93): single-character replace. -/
def hyphenToSpace (l : List Char) : List Char :=
  l.map fun c => if c = '-' then ' ' else c

/-- Transform `store_name.replace('-', ' ').title()` (line 93). -/
def storeTransform (l : List Char) : List Char := pyTitle (hyphenToSpace l)

/-- Boolean test: `pat` is a prefix of `s`. -/
def leadsWith : List Char → List Char → Bool
  | [], _ => true
  | _ :: _, [] => false
  | a :: as, b :: bs => a == b && leadsWith as bs

/-- Python's `$` anchor without `re.MULTILINE`: it matches at the end of
the subject string or just before one final newline.  `t` is the part of
the subject that remains at the current position. -/
def dollarHere : List Char → Bool
  | [] => true
  | [c] => c == '\n'
  | _ => false

/-- The subject ends with a newline character. -/
def endsWithNl : List Char → Bool
  | [] => false
  | [c] => c == '\n'
  | _ :: rest => endsWithNl rest

/-- Matching engine for the group-and-tail part `([^/]+?)(?:SUF|$)` of the
two patterns of `extract_store_name` (lines 81-86).  The group is
non-greedy, so the shortest non-empty run of non-`'/'` characters whose
continuation matches the literal tail `suf` — tried first, as the first
alternative — or the `$` anchor is returned.  `acc` is the part of the
group consumed so far. -/
def groupFrom (suf : List Char) (acc : List Char) : List Char → Option (List Char)
  | [] => none
  | c :: rest =>
    if c == '/' then none
    else if leadsWith suf rest || dollarHere rest then some (acc ++ [c])
    else groupFrom suf (acc ++ [c]) rest

/-- Model of `re.search` for a pattern of the shape `PRE([^/]+?)(?:SUF|$)` with a
literal `PRE` and `SUF`: try every start position from the left; at a
position where `PRE` matches, run the group engine on the remainder, and
on failure continue with the next position.  Returns the text of group 1
of the leftmost match. -/
def reSearch (pre suf : List Char) : List Char → Option (List Char)
  | [] => none
  | c :: rest =>
    if leadsWith pre (c :: rest) then
      match groupFrom suf [] ((c :: rest).drop pre.length) with
      | some g => some g
      | none => reSearch pre suf rest
    else reSearch pre suf rest

/-- Literal part of pattern 1 (line 83) before the group. -/
def pre1 : List Char := "https://section21.dayschedule.com/".data

/-- Literal tail of pattern 1 (line 83). -/
def suf1 : List Char := "-dr-m-tupy-consultation".data

/-- Literal part of pattern 2 (line 85) before the group. -/
def pre2 : List Char := "https://section21bookings.dayschedule.com/".data

/-- Literal tail of pattern 2 (line 85). -/
def suf2 : List Char := "-dr-consultation-1".data

/-- The pattern loop of `extract_store_name` (lines 88-96): the two
patterns are tried in order; the first match yields group 1, transformed
by `replace('-', ' ').title()`; no match yields `None`. -/
def extractCore (url : List Char) : Option (List Char) :=
  match reSearch pre1 suf1 url with
  | some g => some (storeTransform g)
  | none =>
    match reSearch pre2 suf2 url with
    | some g => some (storeTransform g)
    | none => none

/-- Source `BookingProcessor.extract_store_name` (lines 69-96).  The argument is
`raw.get("booking_url")`, so it may be absent; `if not booking_url` makes
both `None` and the empty string return `None` before the patterns run. -/
def extract_store_name : Option String → Option String
  | none => none
  | some s => if s = "" then none else (extractCore s.data).map String.mk

/-! ## Data model

Python dicts are modelled by structures whose fields are `Option`-valued
where the source reads them with `.get` (a `none` field models an absent
key).  `NormalizedBooking` is the dict built by `clean_booking_data`
(lines 109-129): the source inserts either the key `"store_name"` or the
key `"booking_url"`, never both, so each of those fields is an `Option`
recording key presence; the value stored under `"booking_url"` is itself
`raw.get("booking_url")` and may be `None`, hence the nested `Option`. -/

/-- One `{label, value}` entry of an invitee's `questions` list.  The
source indexes `q["label"]` and `q["value"]` directly (line 102), raising
`KeyError` when a key is absent, so both fields are `Option`-valued. -/
structure QuestionEntry where
  label : Option String
  value : Option String
deriving DecidableEq

/-- One entry of the raw detail's `invitees` list. -/
structure Invitee where
  email : Option String
  phone : Option String
  questions : Option (List QuestionEntry)
deriving DecidableEq

/-- A raw booking detail, as read by `clean_booking_data` with `.get`. -/
structure RawDetail where
  booking_id : Option String
  status : Option String
  booking_url : Option String
  invitees : Option (List Invitee)
deriving DecidableEq

/-- The `"patient"` sub-dict built at lines 121-129. -/
structure Patient where
  full_name : String
  email : Option String
  phone : Option String
  date_of_birth : Option String
  gender : Option String
  height : Option String
  weight : Option String
deriving DecidableEq

/-- The dict built by `clean_booking_data`; see the data-model note. -/
structure NormalizedBooking where
  booking_id : Option String
  store_name : Option String
  booking_url : Option (Option String)
  status : Option String
  patient : Patient
deriving DecidableEq

/-- The literal `{}` placed in the default `[{}]` of line 101. -/
def emptyInvitee : Invitee := ⟨none, none, none⟩

/-- The patient record produced when no invitee data is available. -/
def emptyPatient : Patient := ⟨"", none, none, none, none, none, none⟩

/-- Expression `raw.get("invitees", [{}])[0]` (line 101): an absent key defaults to
`[{}]` whose first element is `{}`; a present but empty list makes the
`[0]` index raise `IndexError`, modelled by `none`. -/
def inviteesFirst : Option (List Invitee) → Option Invitee
  | none => some emptyInvitee
  | some [] => none
  | some (i :: _) => some i

/-- The dict comprehension `{q["label"]: q["value"] for q in ...}`
(line 102) as the association list it inserts, in iteration order; a
question missing either key makes the comprehension raise `KeyError`,
modelled by `none`. -/
def buildQuestions : List QuestionEntry → Option (List (String × String))
  | [] => some []
  | q :: rest =>
    match q.label, q.value with
    | some l, some v => (buildQuestions rest).map ((l, v) :: ·)
    | _, _ => none

/-- Lookup `questions.get(lab)` on the dict of `buildQuestions`: later
insertions overwrite earlier ones, so the last matching entry wins. -/
def qget (qs : List (String × String)) (lab : String) : Option String :=
  match qs with
  | [] => none
  | (l, v) :: rest =>
    match qget rest lab with
    | some w => some w
    | none => if l = lab then some v else none

/-- The `"patient"` dict of lines 121-129: `full_name` joins the `Name`
and `Surname` answers with a space and strips; `email` and `phone` prefer
the named question, falling back (when the question key is absent) to the
invitee's top-level field. -/
def mkPatient (qs : List (String × String)) (invitee : Invitee) : Patient :=
  { full_name := pyStrip ((qget qs "Name").getD "" ++ " " ++ (qget qs "Surname").getD "")
    email := (qget qs "Your email address") <|> invitee.email
    phone := (qget qs "Mobile number") <|> invitee.phone
    date_of_birth := qget qs "Date of Birth"
    gender := qget qs "Gender"
    height := qget qs "Height"
    weight := qget qs "Weight" }

/-- Python truthiness of an `Optional[str]`: `None` and `""` are falsy. -/
def pyTruthyOpt : Option String → Bool
  | none => false
  | some s => s != ""

/-- Source `BookingProcessor.clean_booking_data` (lines 98-131).  A `none`
result models an exception escaping the function (`IndexError` from
`invitees[0]` on a present-but-empty list, or `KeyError` from a question
entry missing `label` or `value`). -/
def clean_booking_data (raw : RawDetail) : Option NormalizedBooking :=
  match inviteesFirst raw.invitees with
  | none => none
  | some invitee =>
    match buildQuestions (invitee.questions.getD []) with
    | none => none
    | some qs =>
      let booking_url := raw.booking_url
      let store_name := extract_store_name booking_url
      if pyTruthyOpt store_name then
        some { booking_id := raw.booking_id
               store_name := store_name
               booking_url := none
               status := raw.status
               patient := mkPatient qs invitee }
      else
        some { booking_id := raw.booking_id
               store_name := none
               booking_url := some booking_url
               status := raw.status
               patient := mkPatient qs invitee }

/-! ## Snapshot store -/

/-- The decoded content of the snapshot file as `load_existing_data` and
`create_booking_map` read it, with `.get` access: each key may be absent.
The outer `Option` of `last_updated` records key presence, the inner one
a JSON `null`. -/
structure SnapshotData where
  last_updated : Option (Option String)
  confirmed : Option (List NormalizedBooking)
  pending : Option (List NormalizedBooking)
  canceled : Option (List NormalizedBooking)
  other : Option (List NormalizedBooking)
deriving DecidableEq

/-- The fresh empty snapshot dict of lines 137, 151 and 154: all four
groups present and empty, `last_updated` present with value `None`. -/
def emptySnapshotData : SnapshotData :=
  ⟨some none, some [], some [], some [], some []⟩

/-- Abstract state of the snapshot file when `load_existing_data` runs:
absent (`os.path.exists` false), undecodable (`json.JSONDecodeError`),
unreadable (any other exception while opening or reading), or readable
with decoded content `d`. -/
inductive FileState where
  | absent
  | decodeError
  | readError
  | ok (d : SnapshotData)
deriving DecidableEq

/-- Source `load_existing_data` (lines 133-154).  All three failure shapes
return the fresh empty snapshot; a successful decode is returned as is,
except that an absent `last_updated` key is inserted with value `None`
(lines 145-146).  The function is total: no exception escapes. -/
def load_existing_data : FileState → SnapshotData
  | .absent => emptySnapshotData
  | .decodeError => emptySnapshotData
  | .readError => emptySnapshotData
  | .ok d => { d with last_updated := some (d.last_updated.getD none) }

/-! ## Booking index -/

/-- One value of the `booking_map` dict (lines 163-166): the group name
the record was found under, and the record itself. -/
structure IndexEntry where
  status : String
  data : NormalizedBooking
deriving DecidableEq

/-- The `booking_map` dict, as an association list in insertion order. -/
abbrev BookingMap := List (String × IndexEntry)

/-- Dict lookup. -/
def mapFind : BookingMap → String → Option IndexEntry
  | [], _ => none
  | (k, v) :: rest, i => if k = i then some v else mapFind rest i

/-- Dict assignment `booking_map[id] = ...`: overwrite an existing key in
place, else append. -/
def mapInsert : BookingMap → String → IndexEntry → BookingMap
  | [], k, v => [(k, v)]
  | (k', v') :: rest, k, v =>
    if k' = k then (k, v) :: rest else (k', v') :: mapInsert rest k v

/-- The inner loop of `create_booking_map` (lines 161-166) over one
status group: records whose `booking_id` key is absent are skipped. -/
def addGroup (m : BookingMap) (st : String) : List NormalizedBooking → BookingMap
  | [] => m
  | b :: rest =>
    addGroup (match b.booking_id with
              | some i => mapInsert m i ⟨st, b⟩
              | none => m) st rest

/-- Source `create_booking_map` (lines 156-168): the four groups are traversed
in the fixed order `confirmed, pending, canceled, other`; a `booking_id`
seen again overwrites its earlier entry. -/
def create_booking_map (d : SnapshotData) : BookingMap :=
  addGroup (addGroup (addGroup (addGroup [] "confirmed" (d.confirmed.getD []))
    "pending" (d.pending.getD [])) "canceled" (d.canceled.getD []))
    "other" (d.other.getD [])

/-! ## Reconciliation engine -/

/-- One booking summary from the listing call, read with `.get`. -/
structure Summary where
  booking_id : Option String
  status : Option String
deriving DecidableEq

/-- The detail fetch as an oracle: `DayScheduleClient.fetch_booking_detail`
(lines 51-64) returns the decoded record on HTTP 200 and `None` on any
non-200 status or transport error, never raising past its boundary; the
oracle's `none` models exactly that `None`.  The argument is the
summary's `booking.get("booking_id")`. -/
abbrev FetchOracle := Option String → Option RawDetail

/-- The tagged value returned by `fetch_with_semaphore`: `existing` is
`{"type": "existing", "data": <reused record>}` (line 194), produced
without any fetch; `fetched u detail` covers `{"type": "updated"}` when
`u` and `{"type": "new"}` otherwise (lines 212-215), produced from a
successful fetch. -/
inductive Tagged where
  | existing (data : NormalizedBooking)
  | fetched (isUpdated : Bool) (detail : RawDetail)
deriving DecidableEq

/-- Python truthiness of `existing_booking_map`: `None` and the empty
dict are falsy. -/
def mapTruthy : Option BookingMap → Bool
  | none => false
  | some [] => false
  | some (_ :: _) => true

/-- Test `booking_id in existing_booking_map`, returning the entry: the map
key set contains only string ids, so a summary without a `booking_id`
key is never a member. -/
def mapContains (m : Option BookingMap) (i : Option String) : Option IndexEntry :=
  match m, i with
  | some mm, some k => mapFind mm k
  | _, _ => none

/-- The reuse test of lines 185-197: with `force_process` false, a
truthy map containing the id, whose stored group equals the lower-cased
summary status and whose record carries a `store_name` key, yields the
stored record; in every other case (including a matching record without
`store_name`, line 196's fall-through) the summary goes on to a fetch. -/
def reuseCheck (m : Option BookingMap) (force_process : Bool) (b : Summary) :
    Option NormalizedBooking :=
  if !force_process && mapTruthy m then
    match mapContains m b.booking_id with
    | some existing =>
      if existing.status == pyLower (b.status.getD "") && existing.data.store_name.isSome then
        some existing.data
      else none
    | none => none
  else none

/-- Source `fetch_with_semaphore` (lines 179-215), the per-summary decision.
A successful reuse returns the stored record with no fetch; otherwise a
detail fetch is issued, a `None` detail yields `None` (no record, no
tally), and a successful detail is tagged updated or new by membership
in the map.  The `asyncio` semaphore, progress bar and pacing sleep do
not affect the value and are modelled separately (see `SemStep`). -/
def fetch_with_semaphore (fetch : FetchOracle) (existing_booking_map : Option BookingMap)
    (force_process : Bool) (booking : Summary) : Option Tagged :=
  match reuseCheck existing_booking_map force_process booking with
  | some d => some (Tagged.existing d)
  | none =>
    match fetch booking.booking_id with
    | none => none
    | some detail =>
      if mapTruthy existing_booking_map
          && (mapContains existing_booking_map booking.booking_id).isSome then
        some (Tagged.fetched true detail)
      else
        some (Tagged.fetched false detail)

/-- The change tally dict `{"new": _, "updated": _, "unchanged": _}`. -/
structure Changes where
  new : Nat
  updated : Nat
  unchanged : Nat
deriving DecidableEq

/-- The tally increment performed for one summary's result: `unchanged`
on reuse (line 193), `updated` or `new` after a successful fetch
(lines 211, 214), nothing for a failed fetch. -/
def tallyOf : Option Tagged → Changes
  | some (.existing _) => ⟨0, 0, 1⟩
  | some (.fetched true _) => ⟨0, 1, 0⟩
  | some (.fetched false _) => ⟨1, 0, 0⟩
  | none => ⟨0, 0, 0⟩

/-- Pointwise sum of tallies. -/
def addChanges (a b : Changes) : Changes :=
  ⟨a.new + b.new, a.updated + b.updated, a.unchanged + b.unchanged⟩

/-- The per-batch task list (lines 218-223): one `fetch_with_semaphore`
task per summary, results joined in original summary order. -/
def batchTags (fetch : FetchOracle) (m : Option BookingMap) (force : Bool)
    (bookings : List Summary) : List (Option Tagged) :=
  bookings.map (fetch_with_semaphore fetch m force)

/-- The batch's `changes` dict as accumulated by the tasks. -/
def batchChanges : List (Option Tagged) → Changes
  | [] => ⟨0, 0, 0⟩
  | t :: rest => addChanges (tallyOf t) (batchChanges rest)

/-- The result loop of lines 226-234: `None` entries are dropped,
`existing` data is appended as is, fetched details are passed through
`clean_booking_data`.  An exception escaping `clean_booking_data` aborts
the whole run, hence the `Option` result. -/
def assembleResults : List (Option Tagged) → Option (List NormalizedBooking)
  | [] => some []
  | none :: rest => assembleResults rest
  | some (.existing d) :: rest => (assembleResults rest).map (d :: ·)
  | some (.fetched _ det) :: rest =>
    match clean_booking_data det with
    | none => none
    | some nb => (assembleResults rest).map (nb :: ·)

/-- Source `process_booking_batch` (lines 170-236): the ordered results plus
the batch tally. -/
def process_booking_batch (fetch : FetchOracle) (m : Option BookingMap)
    (force_process : Bool) (bookings : List Summary) :
    Option (List NormalizedBooking) × Changes :=
  let tags := batchTags fetch m force_process bookings
  (assembleResults tags, batchChanges tags)

/-! ## Run driver -/

/-- The four output groups of the `grouped` dict (lines 250-256),
without the `last_updated` timestamp. -/
structure Grouped where
  confirmed : List NormalizedBooking
  pending : List NormalizedBooking
  canceled : List NormalizedBooking
  other : List NormalizedBooking
deriving DecidableEq

/-- All records of the four groups, in group order. -/
def allRecords (g : Grouped) : List NormalizedBooking :=
  g.confirmed ++ g.pending ++ g.canceled ++ g.other

/-- Total number of records across the four groups. -/
def totalLen (g : Grouped) : Nat :=
  g.confirmed.length + g.pending.length + g.canceled.length + g.other.length

/-- The grouping step of lines 299-304: `if status in grouped` tests the
dict KEYS, which include `"last_updated"`; a record whose lower-cased
status is the string `"last_updated"` therefore selects the timestamp
string, and `.append` on a string raises `AttributeError`, aborting the
run (`none`).  Any other unknown status falls into `other`. -/
def addToGroup (g : Grouped) (r : NormalizedBooking) : Option Grouped :=
  let status := pyLower (r.status.getD "")
  if status = "confirmed" then some { g with confirmed := g.confirmed ++ [r] }
  else if status = "pending" then some { g with pending := g.pending ++ [r] }
  else if status = "canceled" then some { g with canceled := g.canceled ++ [r] }
  else if status = "other" then some { g with other := g.other ++ [r] }
  else if status = "last_updated" then none
  else some { g with other := g.other ++ [r] }

/-- Fold of `addToGroup` over a batch's results, in order. -/
def addAllToGroups (g : Grouped) : List NormalizedBooking → Option Grouped
  | [] => some g
  | r :: rest =>
    match addToGroup g r with
    | none => none
    | some g' => addAllToGroups g' rest

/-- One iteration of the batch loop of lines 284-304: run the batch,
abort if normalisation raised, add the tally, group the results. -/
def runBatch (fetch : FetchOracle) (m : Option BookingMap) (force : Bool)
    (st : Grouped × Changes) (batch : List Summary) : Option (Grouped × Changes) :=
  match process_booking_batch fetch m force batch with
  | (none, _) => none
  | (some results, changes) =>
    match addAllToGroups st.1 results with
    | none => none
    | some g' => some (g', addChanges st.2 changes)

/-- The whole batch loop: batches are strictly sequential. -/
def runAllBatches (fetch : FetchOracle) (m : Option BookingMap) (force : Bool) :
    Grouped × Changes → List (List Summary) → Option (Grouped × Changes)
  | st, [] => some st
  | st, b :: bs =>
    match runBatch fetch m force st b with
    | none => none
    | some st' => runAllBatches fetch m force st' bs

/-- Slicing `raw_bookings[i:i+batch_size]` for `i in range(0, len,
batch_size)` with `batch_size = n + 1`; the fuel is an upper bound on the
list length, consumed one element per step. -/
def chunksFuel : Nat → Nat → List Summary → List (List Summary)
  | 0, _, _ => []
  | _, _, [] => []
  | fuel + 1, n, a :: l => (a :: l.take n) :: chunksFuel fuel n (l.drop n)

/-- The batch slicing of line 283-285 with `batch_size = min 50 len`. -/
def chunksBySize (size : Nat) (l : List Summary) : List (List Summary) :=
  chunksFuel l.length (size - 1) l

/-- The initial empty groups of lines 250-256. -/
def g0 : Grouped := ⟨[], [], [], []⟩

/-- The initial zero tally of line 259. -/
def c0 : Changes := ⟨0, 0, 0⟩

/-- Source `process_bookings` (lines 238-319), after the summary listing
succeeded: the booking index is built from the prior snapshot only in
incremental mode (lines 244-246); with an empty summary list
`batch_size = min(50, 0) = 0` and `range(0, 0, 0)` raises `ValueError`,
aborting the run (`none`); otherwise the batches run in order and the
grouped records and total tally are returned.  The timestamp, progress
bar and prints carry no reconciliation content. -/
def process_bookings (fetch : FetchOracle) (raw_bookings : List Summary)
    (prior : SnapshotData) (incremental : Bool) (force_process : Bool) :
    Option (Grouped × Changes) :=
  let existing_booking_map : Option BookingMap :=
    if incremental then some (create_booking_map prior) else none
  match raw_bookings with
  | [] => none
  | a :: l =>
    runAllBatches fetch existing_booking_map force_process (g0, c0)
      (chunksBySize (min 50 (a :: l).length) (a :: l))

/-! ## Derived predicates used in the statements -/

/-- The total of the three tally counters. -/
def tallyTotal (c : Changes) : Nat := c.new + c.updated + c.unchanged

/-- Exactly one of the keys `store_name` / `booking_url` is present. -/
def exclusive (nb : NormalizedBooking) : Prop :=
  (nb.store_name.isSome = true ∧ nb.booking_url = none)
  ∨ (nb.store_name = none ∧ nb.booking_url.isSome = true)

instance (nb : NormalizedBooking) : Decidable (exclusive nb) := by
  unfold exclusive; infer_instance

/-- All records stored in the four groups of a decoded snapshot. -/
def allSnapshotRecords (d : SnapshotData) : List NormalizedBooking :=
  d.confirmed.getD [] ++ d.pending.getD [] ++ d.canceled.getD [] ++ d.other.getD []

/-- Provenance of a record in the output groups: some summary of some
batch produced it, either as a reused stored record (the `existing` tag)
or by normalising its successfully fetched detail. -/
def originOK (fetch : FetchOracle) (m : Option BookingMap) (force : Bool)
    (bs : List (List Summary)) (r : NormalizedBooking) : Prop :=
  ∃ batch ∈ bs, ∃ b' ∈ batch,
    fetch_with_semaphore fetch m force b' = some (Tagged.existing r)
    ∨ ∃ u det, fetch_with_semaphore fetch m force b' = some (Tagged.fetched u det)
        ∧ clean_booking_data det = some r

/-- Whether `pat` occurs as a contiguous substring (at any position). -/
def occursIn (pat : List Char) : List Char → Bool
  | [] => leadsWith pat []
  | c :: rest => leadsWith pat (c :: rest) || occursIn pat rest

/-- All suffixes of a list, longest first. -/
def allSuffixes : List Char → List (List Char)
  | [] => [[]]
  | c :: rest => (c :: rest) :: allSuffixes rest

/-- Concatenation of a list of batches. -/
def concatAll : List (List Summary) → List Summary
  | [] => []
  | l :: ls => l ++ concatAll ls

/-! ## Concurrency model for the admission gate

`process_booking_batch` creates `asyncio.Semaphore(MAX_CONCURRENT_REQUESTS)`
(line 177) and every task of the batch wraps its detail fetch in
`async with semaphore` (lines 200-208); tasks that reuse a stored record
return before reaching the semaphore (line 194).  The cooperative
scheduler is modelled as a nondeterministic small-step relation: a task
either finishes without fetching, or acquires the gate (only when the
counter is positive, the semantics of `asyncio.Semaphore.acquire`),
fetches, and releases on exit from the `async with` block. -/

/-- Phase of one per-booking task of a batch. -/
inductive TaskPhase where
  | pending
  | inFetch
  | finished
deriving DecidableEq

/-- Number of tasks currently inside the semaphore-guarded fetch. -/
def countInFetch : List TaskPhase → Nat
  | [] => 0
  | TaskPhase.inFetch :: rest => countInFetch rest + 1
  | TaskPhase.pending :: rest => countInFetch rest
  | TaskPhase.finished :: rest => countInFetch rest

/-- Scheduler state for one batch: the semaphore counter and the task
phases. -/
structure SemState where
  sem : Nat
  tasks : List TaskPhase
deriving DecidableEq

/-- Number of in-flight detail fetches. -/
def inFlight (s : SemState) : Nat := countInFetch s.tasks

/-- One scheduler step. -/
inductive SemStep : SemState → SemState → Prop where
  | skipFetch (i : Nat) (s : SemState) (h : s.tasks.get? i = some .pending) :
      SemStep s ⟨s.sem, s.tasks.set i .finished⟩
  | acquire (i : Nat) (s : SemState) (h : s.tasks.get? i = some .pending)
      (hs : 0 < s.sem) :
      SemStep s ⟨s.sem - 1, s.tasks.set i .inFetch⟩
  | release (i : Nat) (s : SemState) (h : s.tasks.get? i = some .inFetch) :
      SemStep s ⟨s.sem + 1, s.tasks.set i .finished⟩

/-- Start of a batch of `n` tasks: a fresh semaphore at
`MAX_CONCURRENT_REQUESTS` and every task not yet started (line 177 and
lines 218-219). -/
def initState (n : Nat) : SemState :=
  ⟨MAX_CONCURRENT_REQUESTS, List.replicate n .pending⟩

/-- States the scheduler can reach during one batch of `n` tasks. -/
inductive SemReachable (n : Nat) : SemState → Prop where
  | init : SemReachable n (initState n)
  | step {s s' : SemState} : SemReachable n s → SemStep s s' → SemReachable n s'

/-! ## Concrete data used by the witnesses -/

/-- A stored record with a derived store name, as a prior run saves it. -/
def nbW : NormalizedBooking :=
  { booking_id := some "b1", store_name := some "Acme Clinic", booking_url := none,
    status := some "confirmed", patient := emptyPatient }

/-- A prior snapshot holding `nbW` in its `confirmed` group. -/
def priorW : SnapshotData :=
  { last_updated := some none, confirmed := some [nbW], pending := some [],
    canceled := some [], other := some [] }

/-- A summary listing `nbW`'s booking with unchanged status. -/
def sumW : Summary := ⟨some "b1", some "Confirmed"⟩

/-- A summary for a booking unknown to the prior snapshot. -/
def sum2W : Summary := ⟨some "b2", some "pending"⟩

/-- The raw detail the oracle returns for booking `b2`. -/
def detW : RawDetail :=
  { booking_id := some "b2", status := some "Pending",
    booking_url := some "https://example.org/x", invitees := none }

/-- An oracle that succeeds only for booking `b2`. -/
def fetchW : FetchOracle := fun i => if i = some "b2" then some detW else none

/-- What `clean_booking_data` produces from `detW`. -/
def cleanedW : NormalizedBooking :=
  { booking_id := some "b2", store_name := none,
    booking_url := some (some "https://example.org/x"),
    status := some "Pending", patient := emptyPatient }

/-- A raw detail whose `invitees` list is present but empty. -/
def rawEmptyInvitees : RawDetail :=
  { booking_id := some "b1", status := some "confirmed", booking_url := none,
    invitees := some [] }

/-- A raw detail whose `invitees` key is absent. -/
def rawNoInvitees : RawDetail :=
  { booking_id := some "b1", status := some "confirmed", booking_url := none,
    invitees := none }

/-- A booking URL matching neither host pattern. -/
def urlNoMatch : String := "https://example.com/store-x"

/-- A raw detail carrying `urlNoMatch`. -/
def rawUrlW : RawDetail :=
  { booking_id := some "b3", status := none, booking_url := some urlNoMatch,
    invitees := none }

/-- What `clean_booking_data` produces from `rawUrlW`. -/
def nbUrlW : NormalizedBooking :=
  { booking_id := some "b3", store_name := none, booking_url := some (some urlNoMatch),
    status := none, patient := emptyPatient }

/-- A slash-free slug ending in a newline: the `$` anchor of the source
patterns matches just before it, truncating the captured group. -/
def slugNl : List Char := "ab\n".data

/-- A well-behaved slash-free slug without the documented tail. -/
def slugW : List Char := "acme-shop".data

/-! ## Lemmas about the reconciliation decision -/

theorem mapTruthy_of_find {mm : BookingMap} {k : String} {e : IndexEntry}
    (h : mapFind mm k = some e) : mapTruthy (some mm) = true := by
  cases mm with
  | nil => simp [mapFind] at h
  | cons hd tl => rfl

theorem reuseCheck_some {m : Option BookingMap} {force : Bool} {b : Summary}
    {d : NormalizedBooking} (h : reuseCheck m force b = some d) :
    ∃ mm i e, m = some mm ∧ b.booking_id = some i ∧ mapFind mm i = some e ∧ e.data = d := by
  unfold reuseCheck at h
  split at h
  · cases m with
    | none => simp [mapContains] at h
    | some mm =>
      cases hb : b.booking_id with
      | none => simp only [hb, mapContains] at h; simp at h
      | some i =>
        simp only [hb, mapContains] at h
        split at h
        · rename_i e hfind
          split at h
          · exact ⟨mm, i, e, rfl, rfl, hfind, by injection h⟩
          · simp at h
        · simp at h
  · simp at h

theorem fws_existing_inv {fetch : FetchOracle} {m : Option BookingMap} {force : Bool}
    {b : Summary} {d : NormalizedBooking}
    (h : fetch_with_semaphore fetch m force b = some (Tagged.existing d)) :
    ∃ mm i e, m = some mm ∧ b.booking_id = some i ∧ mapFind mm i = some e ∧ e.data = d := by
  unfold fetch_with_semaphore at h
  cases hr : reuseCheck m force b with
  | some d' =>
    simp only [hr] at h
    have hd : d' = d := by injection h with h'; injection h'
    exact reuseCheck_some (hd ▸ hr)
  | none =>
    simp only [hr] at h
    cases hf : fetch b.booking_id with
    | none => simp [hf] at h
    | some det =>
      simp only [hf] at h
      split at h <;> simp at h

theorem fws_fetched_inv {fetch : FetchOracle} {m : Option BookingMap} {force : Bool}
    {b : Summary} {u : Bool} {det : RawDetail}
    (h : fetch_with_semaphore fetch m force b = some (Tagged.fetched u det)) :
    fetch b.booking_id = some det := by
  unfold fetch_with_semaphore at h
  cases hr : reuseCheck m force b with
  | some d' => simp only [hr] at h; simp at h
  | none =>
    simp only [hr] at h
    cases hf : fetch b.booking_id with
    | none => simp only [hf] at h; simp at h
    | some det' => simp only [hf] at h; split at h <;> simp_all

theorem fws_reuse (fetch : FetchOracle) {mm : BookingMap} {b : Summary} {i : String}
    {e : IndexEntry} (hid : b.booking_id = some i) (hfind : mapFind mm i = some e)
    (hstat : e.status = pyLower (b.status.getD "")) (hstore : e.data.store_name.isSome = true) :
    fetch_with_semaphore fetch (some mm) false b = some (Tagged.existing e.data) := by
  have ht : mapTruthy (some mm) = true := mapTruthy_of_find hfind
  have hr : reuseCheck (some mm) false b = some e.data := by
    unfold reuseCheck
    simp only [hid, mapContains, ht, hfind, Bool.not_false, Bool.true_and, if_true]
    simp [hstat, hstore]
  unfold fetch_with_semaphore
  rw [hr]

theorem fws_none {fetch : FetchOracle} {m : Option BookingMap} {force : Bool} {b : Summary}
    (hr : reuseCheck m force b = none) (hf : fetch b.booking_id = none) :
    fetch_with_semaphore fetch m force b = none := by
  unfold fetch_with_semaphore
  simp only [hr, hf]

theorem clean_booking_id {raw : RawDetail} {nb : NormalizedBooking}
    (h : clean_booking_data raw = some nb) : nb.booking_id = raw.booking_id := by
  unfold clean_booking_data at h
  cases hi : inviteesFirst raw.invitees with
  | none => simp only [hi] at h; simp at h
  | some inv =>
    simp only [hi] at h
    cases hq : buildQuestions (inv.questions.getD []) with
    | none => simp only [hq] at h; simp at h
    | some qs =>
      simp only [hq] at h
      split at h <;> (injection h with h; subst h; rfl)

theorem pyTruthyOpt_isSome {o : Option String} (h : pyTruthyOpt o = true) :
    o.isSome = true := by
  cases o with
  | none => simp [pyTruthyOpt] at h
  | some s => rfl

theorem clean_exclusive {raw : RawDetail} {nb : NormalizedBooking}
    (h : clean_booking_data raw = some nb) : exclusive nb := by
  unfold clean_booking_data at h
  cases hi : inviteesFirst raw.invitees with
  | none => simp only [hi] at h; simp at h
  | some inv =>
    simp only [hi] at h
    cases hq : buildQuestions (inv.questions.getD []) with
    | none => simp only [hq] at h; simp at h
    | some qs =>
      simp only [hq] at h
      split at h
      · rename_i htr
        injection h with h; subst h
        exact Or.inl ⟨pyTruthyOpt_isSome htr, rfl⟩
      · injection h with h; subst h
        exact Or.inr ⟨rfl, rfl⟩

/-! ## Lemmas about the booking index -/

theorem mapFind_mapInsert : ∀ (m : BookingMap) (k : String) (v : IndexEntry) (k' : String),
    mapFind (mapInsert m k v) k' = if k = k' then some v else mapFind m k' := by
  intro m
  induction m with
  | nil => intro k v k'; rfl
  | cons p rest ih =>
    intro k v k'
    obtain ⟨k0, v0⟩ := p
    simp only [mapInsert]
    by_cases h0 : k0 = k
    · subst h0
      simp only [if_pos rfl, mapFind]
      by_cases h1 : k0 = k' <;> simp [h1]
    · rw [if_neg h0]
      simp only [mapFind, ih]
      by_cases h1 : k0 = k' <;> by_cases h2 : k = k' <;> simp [h1, h2]
      exact absurd (h2 ▸ h1) h0

theorem mapFind_addGroup : ∀ (bs : List NormalizedBooking) (m : BookingMap) (st : String)
    (k : String) (e : IndexEntry), mapFind (addGroup m st bs) k = some e →
    mapFind m k = some e ∨ (e.data ∈ bs ∧ e.status = st) := by
  intro bs
  induction bs with
  | nil => intro m st k e h; exact Or.inl h
  | cons b rest ih =>
    intro m st k e h
    simp only [addGroup] at h
    rcases ih _ _ _ _ h with h1 | h1
    · cases hb : b.booking_id with
      | none => simp only [hb] at h1; exact Or.inl h1
      | some i =>
        simp only [hb] at h1
        rw [mapFind_mapInsert] at h1
        split at h1
        · injection h1 with h1
          subst h1
          exact Or.inr ⟨List.mem_cons_self _ _, rfl⟩
        · exact Or.inl h1
    · exact Or.inr ⟨List.mem_cons_of_mem _ h1.1, h1.2⟩

theorem mapFind_addGroup_id : ∀ (bs : List NormalizedBooking) (m : BookingMap)
    (st k : String) (e : IndexEntry), mapFind (addGroup m st bs) k = some e →
    mapFind m k = some e ∨ e.data.booking_id = some k := by
  intro bs
  induction bs with
  | nil => intro m st k e h; exact Or.inl h
  | cons b rest ih =>
    intro m st k e h
    simp only [addGroup] at h
    rcases ih _ _ _ _ h with h1 | h1
    · cases hb : b.booking_id with
      | none => simp only [hb] at h1; exact Or.inl h1
      | some i =>
        simp only [hb] at h1
        rw [mapFind_mapInsert] at h1
        split at h1
        · rename_i hik
          injection h1 with h1
          subst h1
          refine Or.inr ?_
          rw [show (⟨st, b⟩ : IndexEntry).data = b from rfl, hb, hik]
        · exact Or.inl h1
    · exact Or.inr h1

theorem create_booking_map_id {prior : SnapshotData} {k : String} {e : IndexEntry}
    (h : mapFind (create_booking_map prior) k = some e) : e.data.booking_id = some k := by
  unfold create_booking_map at h
  rcases mapFind_addGroup_id _ _ _ _ _ h with h1 | h1
  · rcases mapFind_addGroup_id _ _ _ _ _ h1 with h2 | h2
    · rcases mapFind_addGroup_id _ _ _ _ _ h2 with h3 | h3
      · rcases mapFind_addGroup_id _ _ _ _ _ h3 with h4 | h4
        · simp [mapFind] at h4
        · exact h4
      · exact h3
    · exact h2
  · exact h1

theorem create_booking_map_mem {prior : SnapshotData} {k : String} {e : IndexEntry}
    (h : mapFind (create_booking_map prior) k = some e) :
    e.data ∈ allSnapshotRecords prior := by
  unfold create_booking_map at h
  rcases mapFind_addGroup _ _ _ _ _ h with h1 | h1
  · rcases mapFind_addGroup _ _ _ _ _ h1 with h2 | h2
    · rcases mapFind_addGroup _ _ _ _ _ h2 with h3 | h3
      · rcases mapFind_addGroup _ _ _ _ _ h3 with h4 | h4
        · simp [mapFind] at h4
        · simp only [allSnapshotRecords, List.mem_append]; tauto
      · simp only [allSnapshotRecords, List.mem_append]; tauto
    · simp only [allSnapshotRecords, List.mem_append]; tauto
  · simp only [allSnapshotRecords, List.mem_append]; tauto

/-! ## Lemmas about batch assembly -/

theorem assembleResults_mem : ∀ (tags : List (Option Tagged)) (rs : List NormalizedBooking)
    (r : NormalizedBooking), assembleResults tags = some rs → r ∈ rs →
    ∃ t ∈ tags, t = some (Tagged.existing r)
      ∨ ∃ u det, t = some (Tagged.fetched u det) ∧ clean_booking_data det = some r := by
  intro tags
  induction tags with
  | nil =>
    intro rs r h hr
    simp only [assembleResults] at h
    injection h with h; subst h; simp at hr
  | cons t rest ih =>
    intro rs r h hr
    cases t with
    | none =>
      simp only [assembleResults] at h
      obtain ⟨t', ht', hc⟩ := ih rs r h hr
      exact ⟨t', List.mem_cons_of_mem _ ht', hc⟩
    | some tg =>
      cases tg with
      | existing d =>
        simp only [assembleResults] at h
        cases ha : assembleResults rest with
        | none => simp only [ha] at h; simp at h
        | some rs' =>
          simp only [ha] at h
          simp at h
          subst h
          rcases List.mem_cons.mp hr with h1 | h1
          · subst h1
            exact ⟨some (Tagged.existing r), List.mem_cons_self _ _, Or.inl rfl⟩
          · obtain ⟨t', ht', hc⟩ := ih rs' r ha h1
            exact ⟨t', List.mem_cons_of_mem _ ht', hc⟩
      | fetched u det =>
        simp only [assembleResults] at h
        cases hcl : clean_booking_data det with
        | none => simp only [hcl] at h; simp at h
        | some nb =>
          simp only [hcl] at h
          cases ha : assembleResults rest with
          | none => simp only [ha] at h; simp at h
          | some rs' =>
            simp only [ha] at h
            simp at h
            subst h
            rcases List.mem_cons.mp hr with h1 | h1
            · subst h1
              exact ⟨some (Tagged.fetched u det), List.mem_cons_self _ _,
                Or.inr ⟨u, det, rfl, hcl⟩⟩
            · obtain ⟨t', ht', hc⟩ := ih rs' r ha h1
              exact ⟨t', List.mem_cons_of_mem _ ht', hc⟩

theorem mem_results_of_tag : ∀ (tags : List (Option Tagged)) (rs : List NormalizedBooking)
    (d : NormalizedBooking), assembleResults tags = some rs →
    some (Tagged.existing d) ∈ tags → d ∈ rs := by
  intro tags
  induction tags with
  | nil => intro rs d h hmem; simp at hmem
  | cons t rest ih =>
    intro rs d h hmem
    rcases List.mem_cons.mp hmem with h1 | h1
    · subst h1
      simp only [assembleResults] at h
      cases ha : assembleResults rest with
      | none => simp only [ha] at h; simp at h
      | some rs' =>
        simp only [ha] at h
        simp at h
        subst h
        exact List.mem_cons_self _ _
    · cases t with
      | none =>
        simp only [assembleResults] at h
        exact ih rs d h h1
      | some tg =>
        cases tg with
        | existing d' =>
          simp only [assembleResults] at h
          cases ha : assembleResults rest with
          | none => simp only [ha] at h; simp at h
          | some rs' =>
            simp only [ha] at h; simp at h; subst h
            exact List.mem_cons_of_mem _ (ih rs' d ha h1)
        | fetched u det =>
          simp only [assembleResults] at h
          cases hcl : clean_booking_data det with
          | none => simp only [hcl] at h; simp at h
          | some nb =>
            simp only [hcl] at h
            cases ha : assembleResults rest with
            | none => simp only [ha] at h; simp at h
            | some rs' =>
              simp only [ha] at h; simp at h; subst h
              exact List.mem_cons_of_mem _ (ih rs' d ha h1)

theorem assembleResults_length : ∀ (tags : List (Option Tagged)) (rs : List NormalizedBooking),
    assembleResults tags = some rs → rs.length = tags.countP (fun t => t.isSome) := by
  intro tags
  induction tags with
  | nil =>
    intro rs h
    simp only [assembleResults] at h
    injection h with h; subst h; simp
  | cons t rest ih =>
    intro rs h
    cases t with
    | none =>
      simp only [assembleResults] at h
      rw [ih rs h]
      simp [List.countP_cons]
    | some tg =>
      cases tg with
      | existing d =>
        simp only [assembleResults] at h
        cases ha : assembleResults rest with
        | none => simp only [ha] at h; simp at h
        | some rs' =>
          simp only [ha] at h; simp at h; subst h
          simp [List.countP_cons, ih rs' ha]
      | fetched u det =>
        simp only [assembleResults] at h
        cases hcl : clean_booking_data det with
        | none => simp only [hcl] at h; simp at h
        | some nb =>
          simp only [hcl] at h
          cases ha : assembleResults rest with
          | none => simp only [ha] at h; simp at h
          | some rs' =>
            simp only [ha] at h; simp at h; subst h
            simp [List.countP_cons, ih rs' ha]

theorem tallyTotal_tallyOf (t : Option Tagged) :
    tallyTotal (tallyOf t) = if t.isSome then 1 else 0 := by
  rcases t with _ | tg
  · rfl
  · rcases tg with d | ⟨u, det⟩
    · rfl
    · cases u <;> rfl

theorem tallyTotal_addChanges (a b : Changes) :
    tallyTotal (addChanges a b) = tallyTotal a + tallyTotal b := by
  simp only [tallyTotal, addChanges]
  omega

theorem batchChanges_total : ∀ tags : List (Option Tagged),
    tallyTotal (batchChanges tags) = tags.countP (fun t => t.isSome) := by
  intro tags
  induction tags with
  | nil => rfl
  | cons t rest ih =>
    simp only [batchChanges]
    rw [tallyTotal_addChanges, tallyTotal_tallyOf, ih, List.countP_cons]
    cases ht : t.isSome <;> simp [ht] <;> omega

/-! ## Lemmas about grouping -/

theorem addToGroup_cases {g : Grouped} {r : NormalizedBooking} {g' : Grouped}
    (h : addToGroup g r = some g') :
    g' = { g with confirmed := g.confirmed ++ [r] }
    ∨ g' = { g with pending := g.pending ++ [r] }
    ∨ g' = { g with canceled := g.canceled ++ [r] }
    ∨ g' = { g with other := g.other ++ [r] } := by
  simp only [addToGroup] at h
  split at h
  · injection h with h; exact Or.inl h.symm
  · split at h
    · injection h with h; exact Or.inr (Or.inl h.symm)
    · split at h
      · injection h with h; exact Or.inr (Or.inr (Or.inl h.symm))
      · split at h
        · injection h with h; exact Or.inr (Or.inr (Or.inr h.symm))
        · split at h
          · simp at h
          · injection h with h; exact Or.inr (Or.inr (Or.inr h.symm))

theorem addToGroup_mem {g : Grouped} {r : NormalizedBooking} {g' : Grouped}
    (h : addToGroup g r = some g') (x : NormalizedBooking) :
    x ∈ allRecords g' ↔ x ∈ allRecords g ∨ x = r := by
  rcases addToGroup_cases h with h' | h' | h' | h' <;> subst h' <;>
    simp [allRecords, List.mem_append, or_assoc] <;> tauto

theorem addToGroup_totalLen {g : Grouped} {r : NormalizedBooking} {g' : Grouped}
    (h : addToGroup g r = some g') : totalLen g' = totalLen g + 1 := by
  rcases addToGroup_cases h with h' | h' | h' | h' <;> subst h' <;>
    simp [totalLen] <;> omega

theorem addAllToGroups_mem : ∀ (rs : List NormalizedBooking) (g g' : Grouped),
    addAllToGroups g rs = some g' →
    ∀ x, x ∈ allRecords g' ↔ x ∈ allRecords g ∨ x ∈ rs := by
  intro rs
  induction rs with
  | nil =>
    intro g g' h x
    simp only [addAllToGroups] at h
    injection h with h; subst h; simp
  | cons r rest ih =>
    intro g g' h x
    simp only [addAllToGroups] at h
    cases ha : addToGroup g r with
    | none => simp only [ha] at h; simp at h
    | some g1 =>
      simp only [ha] at h
      rw [ih g1 g' h x, addToGroup_mem ha x]
      simp only [List.mem_cons]
      tauto

theorem addAllToGroups_totalLen : ∀ (rs : List NormalizedBooking) (g g' : Grouped),
    addAllToGroups g rs = some g' → totalLen g' = totalLen g + rs.length := by
  intro rs
  induction rs with
  | nil =>
    intro g g' h
    simp only [addAllToGroups] at h
    injection h with h; subst h; simp
  | cons r rest ih =>
    intro g g' h
    simp only [addAllToGroups] at h
    cases ha : addToGroup g r with
    | none => simp only [ha] at h; simp at h
    | some g1 =>
      simp only [ha] at h
      have := addToGroup_totalLen ha
      have := ih g1 g' h
      simp only [List.length_cons]
      omega

/-! ## Lemmas about the batch loop -/

theorem runBatch_inv {fetch : FetchOracle} {m : Option BookingMap} {force : Bool}
    {st : Grouped × Changes} {batch : List Summary} {st' : Grouped × Changes}
    (h : runBatch fetch m force st batch = some st') :
    ∃ rs, assembleResults (batchTags fetch m force batch) = some rs
      ∧ addAllToGroups st.1 rs = some st'.1
      ∧ st'.2 = addChanges st.2 (batchChanges (batchTags fetch m force batch)) := by
  unfold runBatch process_booking_batch at h
  cases ha : assembleResults (batchTags fetch m force batch) with
  | none => simp only [ha] at h; simp at h
  | some rs =>
    simp only [ha] at h
    cases hg : addAllToGroups st.1 rs with
    | none => simp only [hg] at h; simp at h
    | some g' =>
      simp only [hg] at h
      injection h with h
      subst h
      exact ⟨rs, rfl, hg, rfl⟩

theorem runAllBatches_subset {fetch : FetchOracle} {m : Option BookingMap} {force : Bool} :
    ∀ (bs : List (List Summary)) (st st' : Grouped × Changes),
    runAllBatches fetch m force st bs = some st' →
    ∀ x, x ∈ allRecords st.1 → x ∈ allRecords st'.1 := by
  intro bs
  induction bs with
  | nil =>
    intro st st' h x hx
    simp only [runAllBatches] at h
    injection h with h; subst h; exact hx
  | cons bch rest ih =>
    intro st st' h x hx
    simp only [runAllBatches] at h
    cases hb : runBatch fetch m force st bch with
    | none => simp only [hb] at h; simp at h
    | some st1 =>
      simp only [hb] at h
      obtain ⟨rs, _, hg, _⟩ := runBatch_inv hb
      exact ih st1 st' h x ((addAllToGroups_mem rs st.1 st1.1 hg x).mpr (Or.inl hx))

theorem runAllBatches_tag_mem {fetch : FetchOracle} {m : Option BookingMap} {force : Bool} :
    ∀ (bs : List (List Summary)) (st st' : Grouped × Changes)
    (batch : List Summary) (d : NormalizedBooking),
    runAllBatches fetch m force st bs = some st' → batch ∈ bs →
    some (Tagged.existing d) ∈ batchTags fetch m force batch → d ∈ allRecords st'.1 := by
  intro bs
  induction bs with
  | nil => intro st st' batch d h hmem htag; simp at hmem
  | cons bch rest ih =>
    intro st st' batch d h hmem htag
    simp only [runAllBatches] at h
    cases hb : runBatch fetch m force st bch with
    | none => simp only [hb] at h; simp at h
    | some st1 =>
      simp only [hb] at h
      rcases List.mem_cons.mp hmem with h1 | h1
      · subst h1
        obtain ⟨rs, ha, hg, _⟩ := runBatch_inv hb
        have hd : d ∈ rs := mem_results_of_tag _ _ _ ha htag
        have hmem1 : d ∈ allRecords st1.1 :=
          (addAllToGroups_mem rs st.1 st1.1 hg d).mpr (Or.inr hd)
        exact runAllBatches_subset rest st1 st' h d hmem1
      · exact ih st1 st' batch d h h1 htag

theorem runAllBatches_origin {fetch : FetchOracle} {m : Option BookingMap} {force : Bool} :
    ∀ (bs : List (List Summary)) (st st' : Grouped × Changes) (r : NormalizedBooking),
    runAllBatches fetch m force st bs = some st' →
    r ∈ allRecords st'.1 → r ∈ allRecords st.1 ∨ originOK fetch m force bs r := by
  intro bs
  induction bs with
  | nil =>
    intro st st' r h hr
    simp only [runAllBatches] at h
    injection h with h; subst h; exact Or.inl hr
  | cons bch rest ih =>
    intro st st' r h hr
    simp only [runAllBatches] at h
    cases hb : runBatch fetch m force st bch with
    | none => simp only [hb] at h; simp at h
    | some st1 =>
      simp only [hb] at h
      rcases ih st1 st' r h hr with h1 | h1
      · obtain ⟨rs, ha, hg, _⟩ := runBatch_inv hb
        rcases (addAllToGroups_mem rs st.1 st1.1 hg r).mp h1 with h2 | h2
        · exact Or.inl h2
        · obtain ⟨t, ht, hc⟩ := assembleResults_mem _ _ _ ha h2
          obtain ⟨b', hb', rfl⟩ := List.mem_map.mp ht
          rcases hc with hc | ⟨u, det, hc, hcl⟩
          · exact Or.inr ⟨bch, List.mem_cons_self _ _, b', hb', Or.inl hc⟩
          · exact Or.inr ⟨bch, List.mem_cons_self _ _, b', hb', Or.inr ⟨u, det, hc, hcl⟩⟩
      · obtain ⟨batch, hbatch, hrest⟩ := h1
        exact Or.inr ⟨batch, List.mem_cons_of_mem _ hbatch, hrest⟩

theorem runAllBatches_total {fetch : FetchOracle} {m : Option BookingMap} {force : Bool} :
    ∀ (bs : List (List Summary)) (st st' : Grouped × Changes),
    runAllBatches fetch m force st bs = some st' →
    totalLen st'.1 + tallyTotal st.2 = totalLen st.1 + tallyTotal st'.2 := by
  intro bs
  induction bs with
  | nil =>
    intro st st' h
    simp only [runAllBatches] at h
    injection h with h; subst h; rfl
  | cons bch rest ih =>
    intro st st' h
    simp only [runAllBatches] at h
    cases hb : runBatch fetch m force st bch with
    | none => simp only [hb] at h; simp at h
    | some st1 =>
      simp only [hb] at h
      obtain ⟨rs, ha, hg, hch⟩ := runBatch_inv hb
      have h1 := ih st1 st' h
      have h2 := addAllToGroups_totalLen rs st.1 st1.1 hg
      have h3 := assembleResults_length _ _ ha
      have h4 : tallyTotal st1.2
          = tallyTotal st.2 + tallyTotal (batchChanges (batchTags fetch m force bch)) := by
        rw [hch]; exact tallyTotal_addChanges _ _
      have h5 := batchChanges_total (batchTags fetch m force bch)
      omega

theorem chunksFuel_mem : ∀ (fuel n : Nat) (l : List Summary) (b : Summary),
    l.length ≤ fuel → b ∈ l → ∃ batch ∈ chunksFuel fuel n l, b ∈ batch := by
  intro fuel
  induction fuel with
  | zero =>
    intro n l b hlen hb
    cases l with
    | nil => simp at hb
    | cons a l' => simp at hlen
  | succ f ih =>
    intro n l b hlen hb
    cases l with
    | nil => simp at hb
    | cons a l' =>
      rcases List.mem_cons.mp hb with h1 | h1
      · subst h1
        exact ⟨b :: l'.take n, List.mem_cons_self _ _, List.mem_cons_self _ _⟩
      · have hsplit : b ∈ l'.take n ++ l'.drop n := by
          rw [List.take_append_drop]; exact h1
        rcases List.mem_append.mp hsplit with h2 | h2
        · exact ⟨a :: l'.take n, List.mem_cons_self _ _, List.mem_cons_of_mem _ h2⟩
        · have hlen' : (l'.drop n).length ≤ f := by
            have hd := List.length_drop n l'
            simp only [List.length_cons] at hlen
            omega
          obtain ⟨batch, hbatch, hbb⟩ := ih n (l'.drop n) b hlen' h2
          exact ⟨batch, List.mem_cons_of_mem _ hbatch, hbb⟩

theorem chunksFuel_subset : ∀ (fuel n : Nat) (l batch : List Summary),
    batch ∈ chunksFuel fuel n l → ∀ x ∈ batch, x ∈ l := by
  intro fuel
  induction fuel with
  | zero => intro n l batch h; simp [chunksFuel] at h
  | succ f ih =>
    intro n l batch h x hx
    cases l with
    | nil => simp [chunksFuel] at h
    | cons a l' =>
      rcases List.mem_cons.mp h with h1 | h1
      · subst h1
        rcases List.mem_cons.mp hx with h2 | h2
        · subst h2; exact List.mem_cons_self _ _
        · exact List.mem_cons_of_mem _ (List.take_subset n l' h2)
      · exact List.mem_cons_of_mem _ (List.drop_subset n l' (ih n (l'.drop n) batch h1 x hx))

/-! ## Claim C5 -/

/-- C5.  Corrupt-snapshot recovery: whenever the snapshot file is
absent, unreadable, or fails to decode, `load_existing_data` returns the
fresh empty snapshot (`last_updated` present as `null`, the four groups
present and empty); the loader is a total function, so no exception
escapes the load boundary. -/
theorem C5_corrupt_snapshot_recovery (fs : FileState)
    (h : fs = FileState.absent ∨ fs = FileState.decodeError ∨ fs = FileState.readError) :
    load_existing_data fs = emptySnapshotData
    ∧ (load_existing_data fs).last_updated = some none
    ∧ (load_existing_data fs).confirmed = some []
    ∧ (load_existing_data fs).pending = some []
    ∧ (load_existing_data fs).canceled = some []
    ∧ (load_existing_data fs).other = some [] := by
  rcases h with h | h | h <;> subst h <;> exact ⟨rfl, rfl, rfl, rfl, rfl, rfl⟩

/-- Witness for C5 at the concrete state `absent`. -/
theorem C5_witness :
    load_existing_data FileState.absent = emptySnapshotData
    ∧ (load_existing_data FileState.absent).last_updated = some none
    ∧ (load_existing_data FileState.absent).confirmed = some []
    ∧ (load_existing_data FileState.absent).pending = some []
    ∧ (load_existing_data FileState.absent).canceled = some []
    ∧ (load_existing_data FileState.absent).other = some [] :=
  C5_corrupt_snapshot_recovery FileState.absent (Or.inl rfl)

/-! ## Claim C3 -/

/-- C3.  The claim asserts totality of the normaliser for an absent OR
empty invitees list, but `raw.get("invitees", [{}])[0]` (line 101) only
defaults an ABSENT key: on a present-but-empty list the `[0]` index
raises `IndexError`, which escapes `clean_booking_data` (modelled by
`none`).  The second conjunct evaluates the absent-key case, where the
defaulted `[{}]` does yield a record with all invitee-derived patient
fields empty, confirming that totality was the intent of the default. -/
theorem C3_empty_invitees_is_error :
    clean_booking_data rawEmptyInvitees = none
    ∧ clean_booking_data rawNoInvitees
        = some ⟨some "b1", none, some none, some "confirmed", emptyPatient⟩ := by
  exact ⟨by decide, by decide⟩

/-! ## Claim C7 -/

/-- C7.  Force override: with `force_process` true the reuse branch is
never taken — the result of every summary is exactly the image of its
detail fetch (so a fetch is issued for it, even for a summary whose id
is indexed with equal status and an existing store name), no summary
yields the `existing` tag, and none is tallied as unchanged. -/
theorem C7_force_override (fetch : FetchOracle) (m : Option BookingMap) (b : Summary) :
    fetch_with_semaphore fetch m true b
      = (fetch b.booking_id).map
          (fun det => Tagged.fetched (mapTruthy m && (mapContains m b.booking_id).isSome) det)
    ∧ (tallyOf (fetch_with_semaphore fetch m true b)).unchanged = 0
    ∧ ∀ d : NormalizedBooking, fetch_with_semaphore fetch m true b ≠ some (Tagged.existing d) := by
  have hr : reuseCheck m true b = none := by
    unfold reuseCheck; simp
  have key : fetch_with_semaphore fetch m true b
      = (fetch b.booking_id).map
          (fun det => Tagged.fetched (mapTruthy m && (mapContains m b.booking_id).isSome) det) := by
    unfold fetch_with_semaphore
    rw [hr]
    cases hf : fetch b.booking_id with
    | none => rfl
    | some det =>
      cases hc : (mapTruthy m && (mapContains m b.booking_id).isSome) <;> simp [hc]
  refine ⟨key, ?_, ?_⟩
  · rw [key]
    cases hf : fetch b.booking_id with
    | none => rfl
    | some det => cases (mapTruthy m && (mapContains m b.booking_id).isSome) <;> rfl
  · intro d hcontra
    rw [key] at hcontra
    cases hf : fetch b.booking_id <;> rw [hf] at hcontra <;> simp at hcontra

/-- Witness for C7 at a concrete oracle, map and summary whose id is
indexed with equal status and an existing store name. -/
theorem C7_witness :
    (tallyOf (fetch_with_semaphore (fun _ => none) (some (create_booking_map priorW))
        true sumW)).unchanged = 0
    ∧ fetch_with_semaphore (fun _ => none) (some (create_booking_map priorW)) true sumW
        ≠ some (Tagged.existing nbW) :=
  ⟨(C7_force_override (fun _ => none) (some (create_booking_map priorW)) sumW).2.1,
   (C7_force_override (fun _ => none) (some (create_booking_map priorW)) sumW).2.2 nbW⟩

/-! ## Claim C1 -/

/-- C1.  Reuse correctness: a booking indexed from the prior snapshot
whose indexed group equals the lower-cased summary status and whose
stored record carries a `store_name` key is, with `force_process` false,
reused verbatim — the per-summary result is the stored record tagged
`existing` for EVERY fetch oracle (so no detail fetch is issued for it)
and its tally increment is exactly one `unchanged`; and in any
incremental, non-forced run whose summary list contains the booking, the
stored record appears verbatim in the output groups. -/
theorem C1_reuse_correctness (prior : SnapshotData) (b : Summary) (i : String) (e : IndexEntry)
    (hid : b.booking_id = some i)
    (hfind : mapFind (create_booking_map prior) i = some e)
    (hstat : e.status = pyLower (b.status.getD ""))
    (hstore : e.data.store_name.isSome = true) :
    (∀ fetch : FetchOracle,
        fetch_with_semaphore fetch (some (create_booking_map prior)) false b
          = some (Tagged.existing e.data)
        ∧ tallyOf (fetch_with_semaphore fetch (some (create_booking_map prior)) false b)
          = ⟨0, 0, 1⟩)
    ∧ ∀ (fetch : FetchOracle) (summaries : List Summary) (g : Grouped) (ch : Changes),
        b ∈ summaries →
        process_bookings fetch summaries prior true false = some (g, ch) →
        e.data ∈ allRecords g := by
  have hfw : ∀ fetch : FetchOracle,
      fetch_with_semaphore fetch (some (create_booking_map prior)) false b
        = some (Tagged.existing e.data) :=
    fun fetch => fws_reuse fetch hid hfind hstat hstore
  refine ⟨fun fetch => ⟨hfw fetch, by rw [hfw fetch]; rfl⟩, ?_⟩
  intro fetch summaries g ch hmem h
  cases summaries with
  | nil => simp at hmem
  | cons a l =>
    simp only [process_bookings, if_pos rfl] at h
    obtain ⟨batch, hbatch, hbb⟩ :=
      chunksFuel_mem (a :: l).length (min 50 (a :: l).length - 1) (a :: l) b le_rfl hmem
    have htag : some (Tagged.existing e.data)
        ∈ batchTags fetch (some (create_booking_map prior)) false batch := by
      have hm := List.mem_map_of_mem
        (fetch_with_semaphore fetch (some (create_booking_map prior)) false) hbb
      rw [hfw fetch] at hm
      exact hm
    exact runAllBatches_tag_mem _ _ _ _ _ h hbatch htag

/-- Witness for C1 at a concrete prior snapshot, summary and oracle. -/
theorem C1_witness :
    fetch_with_semaphore (fun _ => none) (some (create_booking_map priorW)) false sumW
      = some (Tagged.existing nbW)
    ∧ nbW ∈ allRecords ⟨[nbW], [], [], []⟩ := by
  have h := C1_reuse_correctness priorW sumW "b1" ⟨"confirmed", nbW⟩
    (by decide) (by decide) (by decide) (by decide)
  exact ⟨(h.1 (fun _ => none)).1,
    h.2 (fun _ => none) [sumW] ⟨[nbW], [], [], []⟩ ⟨0, 0, 1⟩ (by decide) (by decide)⟩

/-! ## Claim C4 -/

/-- C4.  Failed-fetch exclusion.  Consider a run that produced output
and a summary of its list whose detail fetch is actually issued (the
reuse rule does not apply to it) and returns absent — the oracle is
`Option`-valued precisely because `fetch_booking_detail` converts every
non-success status and transport error to `None` without raising.
Provided the oracle is id-consistent (a successful fetch returns the
record of the id it was asked for) and no other summary of the list
carries the same id, the summary's per-summary result is `none` — no
record, no tally — and its booking id appears in no output group of the
run.  This covers in particular a prior-snapshot booking whose status
changed and whose re-fetch fails. -/
theorem C4_failed_fetch_exclusion (fetch : FetchOracle) (summaries : List Summary)
    (prior : SnapshotData) (incremental force : Bool) (g : Grouped) (ch : Changes)
    (b : Summary) (i : String)
    (hmem : b ∈ summaries)
    (hid : b.booking_id = some i)
    (hfail : fetch b.booking_id = none)
    (hcons : ∀ oid det, fetch oid = some det → det.booking_id = oid)
    (huniq : ∀ b' ∈ summaries, b'.booking_id = some i → b' = b)
    (hnoreuse : reuseCheck (if incremental then some (create_booking_map prior) else none)
      force b = none)
    (h : process_bookings fetch summaries prior incremental force = some (g, ch)) :
    fetch_with_semaphore fetch
        (if incremental then some (create_booking_map prior) else none) force b = none
    ∧ ∀ r ∈ allRecords g, r.booking_id ≠ some i := by
  have hfwsb : fetch_with_semaphore fetch
      (if incremental then some (create_booking_map prior) else none) force b = none :=
    fws_none hnoreuse hfail
  refine ⟨hfwsb, ?_⟩
  intro r hr hri
  cases summaries with
  | nil => simp at hmem
  | cons a l =>
    simp only [process_bookings] at h
    rcases runAllBatches_origin _ _ _ _ h hr with h1 | h1
    · simp [g0, allRecords] at h1
    · obtain ⟨batch, hbatch, b', hb', hcase⟩ := h1
      have hb'mem : b' ∈ a :: l := chunksFuel_subset _ _ _ _ hbatch b' hb'
      rcases hcase with hc | ⟨u, det, hc, hcl⟩
      · obtain ⟨mm, i', e, hm, hbid', hfind, hdata⟩ := fws_existing_inv hc
        cases incremental with
        | false => simp at hm
        | true =>
          simp at hm
          subst hm
          have hkey : e.data.booking_id = some i' := create_booking_map_id hfind
          have hii : some i' = some i := by rw [← hkey, hdata, hri]
          injection hii with hii
          subst hii
          have hbb : b' = b := huniq b' hb'mem hbid'
          rw [hbb, hfwsb] at hc
          simp at hc
      · have hdid : det.booking_id = b'.booking_id := hcons _ _ (fws_fetched_inv hc)
        have hrd : r.booking_id = det.booking_id := clean_booking_id hcl
        have hb'id : b'.booking_id = some i := by rw [← hdid, ← hrd, hri]
        have hbb : b' = b := huniq b' hb'mem hb'id
        rw [hbb] at hc
        have hcontra := fws_fetched_inv hc
        rw [hfail] at hcontra
        simp at hcontra

/-- Witness for C4: the claim's central scenario — the prior snapshot
holds booking `b1` as `confirmed` with a store name, the new summary
lists it as `canceled` (status changed, so the reuse rule does not
apply), and its re-fetch fails — leaves `b1` out of every output
group. -/
theorem C4_witness :
    fetch_with_semaphore (fun _ => none) (some (create_booking_map priorW)) false
        ⟨some "b1", some "canceled"⟩ = none
    ∧ ∀ r ∈ allRecords ⟨[], [], [], []⟩, r.booking_id ≠ some "b1" :=
  C4_failed_fetch_exclusion (fun _ => none) [⟨some "b1", some "canceled"⟩] priorW true false
    ⟨[], [], [], []⟩ ⟨0, 0, 0⟩ ⟨some "b1", some "canceled"⟩ "b1"
    (by decide) (by decide) rfl (fun oid det hf => by simp at hf) (by decide) (by decide)
    (by decide)

/-! ## Claim C9 -/

/-- C9.  Tally conservation: every summary whose result is a record
increments exactly one of the three tallies and a failed fetch
increments none, so for every run that produced output the total
`new + updated + unchanged` equals the number of records appended
across the four output groups. -/
theorem C9_tally_conservation (fetch : FetchOracle) (summaries : List Summary)
    (prior : SnapshotData) (incremental force : Bool) (g : Grouped) (ch : Changes)
    (h : process_bookings fetch summaries prior incremental force = some (g, ch)) :
    ch.new + ch.updated + ch.unchanged = totalLen g := by
  cases summaries with
  | nil => simp [process_bookings] at h
  | cons a l =>
    simp only [process_bookings] at h
    have hT := runAllBatches_total _ _ _ h
    simp [g0, c0, tallyTotal, totalLen] at hT
    simp only [totalLen]
    omega

/-- Witness for C9 at a concrete run with one reused and one fetched
booking. -/
theorem C9_witness :
    process_bookings fetchW [sumW, sum2W] priorW true false
      = some (⟨[nbW], [cleanedW], [], []⟩, ⟨1, 0, 1⟩)
    ∧ 1 + 0 + 1 = totalLen ⟨[nbW], [cleanedW], [], []⟩ := by
  refine ⟨by decide, ?_⟩
  exact C9_tally_conservation fetchW [sumW, sum2W] priorW true false
    ⟨[nbW], [cleanedW], [], []⟩ ⟨1, 0, 1⟩ (by decide)

/-! ## Claim C6 -/

/-- C6.  Mutual exclusivity: every record `clean_booking_data` produces
carries exactly one of the keys `store_name` / `booking_url`; and in any
run whose prior snapshot already satisfies the invariant, every record
in every output group satisfies it (output records are either reused
prior records or freshly normalised ones). -/
theorem C6_mutual_exclusivity :
    (∀ (raw : RawDetail) (nb : NormalizedBooking),
        clean_booking_data raw = some nb → exclusive nb)
    ∧ ∀ (fetch : FetchOracle) (summaries : List Summary) (prior : SnapshotData)
        (incremental force : Bool) (g : Grouped) (ch : Changes),
        (∀ r ∈ allSnapshotRecords prior, exclusive r) →
        process_bookings fetch summaries prior incremental force = some (g, ch) →
        ∀ r ∈ allRecords g, exclusive r := by
  refine ⟨fun raw nb h => clean_exclusive h, ?_⟩
  intro fetch summaries prior incremental force g ch hprior h r hr
  cases summaries with
  | nil => simp [process_bookings] at h
  | cons a l =>
    simp only [process_bookings] at h
    rcases runAllBatches_origin _ _ _ _ h hr with h1 | h1
    · simp [g0, allRecords] at h1
    · obtain ⟨batch, _, b', _, hcase⟩ := h1
      rcases hcase with hc | ⟨u, det, _, hcl⟩
      · obtain ⟨mm, i', e, hm, _, hfind, hdata⟩ := fws_existing_inv hc
        cases incremental with
        | false => simp at hm
        | true =>
          simp at hm
          subst hm
          exact hdata ▸ hprior e.data (create_booking_map_mem hfind)
      · exact clean_exclusive hcl

/-- Witness for C6: a freshly normalised record and a reused record from
a concrete run, both exclusive. -/
theorem C6_witness : exclusive cleanedW ∧ exclusive nbW := by
  refine ⟨C6_mutual_exclusivity.1 detW cleanedW (by decide), ?_⟩
  exact C6_mutual_exclusivity.2 (fun _ => none) [sumW] priorW true false
    ⟨[nbW], [], [], []⟩ ⟨0, 0, 1⟩ (by decide) (by decide) nbW (by decide)

/-! ## Claim C2 -/

/-- C2.  Store-name extraction: the two documented URLs yield
`"Acme Clinic"`; and any URL on which both pattern searches fail yields
no store name, so the normalised record keeps the key `booking_url` with
the original URL verbatim and has no `store_name` key. -/
theorem C2_store_name_extraction :
    extract_store_name
        (some "https://section21.dayschedule.com/acme-clinic-dr-m-tupy-consultation")
      = some "Acme Clinic"
    ∧ extract_store_name
        (some "https://section21bookings.dayschedule.com/acme-clinic-dr-consultation-1")
      = some "Acme Clinic"
    ∧ ∀ url : String, reSearch pre1 suf1 url.data = none → reSearch pre2 suf2 url.data = none →
        extract_store_name (some url) = none
        ∧ ∀ (raw : RawDetail) (nb : NormalizedBooking), raw.booking_url = some url →
            clean_booking_data raw = some nb →
            nb.store_name = none ∧ nb.booking_url = some (some url) := by
  refine ⟨by decide, by decide, ?_⟩
  intro url h1 h2
  have hex : extract_store_name (some url) = none := by
    simp only [extract_store_name, extractCore, h1, h2]
    split <;> rfl
  refine ⟨hex, ?_⟩
  intro raw nb hurl hclean
  unfold clean_booking_data at hclean
  cases hi : inviteesFirst raw.invitees with
  | none => simp only [hi] at hclean; simp at hclean
  | some inv =>
    simp only [hi] at hclean
    cases hq : buildQuestions (inv.questions.getD []) with
    | none => simp only [hq] at hclean; simp at hclean
    | some qs =>
      simp only [hq, hurl, hex, pyTruthyOpt] at hclean
      simp at hclean
      rw [← hclean]
      exact ⟨rfl, rfl⟩

/-- Witness for C2 at a URL matching neither host pattern. -/
theorem C2_witness :
    extract_store_name (some urlNoMatch) = none
    ∧ nbUrlW.store_name = none ∧ nbUrlW.booking_url = some (some urlNoMatch) := by
  have h := C2_store_name_extraction.2.2 urlNoMatch (by decide) (by decide)
  exact ⟨h.1, h.2 rawUrlW nbUrlW rfl (by decide)⟩

/-! ## Claim C8 -/

theorem countInFetch_set : ∀ (l : List TaskPhase) (i : Nat) (a b : TaskPhase),
    l.get? i = some b →
    countInFetch (l.set i a) + (if b = TaskPhase.inFetch then 1 else 0)
      = countInFetch l + (if a = TaskPhase.inFetch then 1 else 0) := by
  intro l
  induction l with
  | nil => intro i a b h; simp at h
  | cons c rest ih =>
    intro i a b h
    cases i with
    | zero =>
      simp only [List.get?] at h
      injection h with h
      subst h
      simp only [List.set]
      cases a <;> cases c <;> simp [countInFetch]
    | succ j =>
      simp only [List.get?] at h
      simp only [List.set]
      have := ih j a b h
      cases c <;> simp only [countInFetch] <;> omega

theorem countInFetch_replicate : ∀ n : Nat,
    countInFetch (List.replicate n TaskPhase.pending) = 0 := by
  intro n
  induction n with
  | zero => rfl
  | succ k ih =>
    rw [List.replicate_succ]
    show countInFetch (List.replicate k TaskPhase.pending) = 0
    exact ih

theorem semInvariant {n : Nat} {s : SemState} (h : SemReachable n s) :
    s.sem + inFlight s = MAX_CONCURRENT_REQUESTS := by
  induction h with
  | init =>
    show MAX_CONCURRENT_REQUESTS + countInFetch (List.replicate n TaskPhase.pending)
      = MAX_CONCURRENT_REQUESTS
    rw [countInFetch_replicate]
    rfl
  | @step t _ _ hstep ih =>
    cases hstep with
    | skipFetch i _ hi =>
      have hc := countInFetch_set t.tasks i TaskPhase.finished TaskPhase.pending hi
      simp only [inFlight] at ih
      simp at hc
      show t.sem + countInFetch (t.tasks.set i TaskPhase.finished) = MAX_CONCURRENT_REQUESTS
      omega
    | acquire i _ hi hs =>
      have hc := countInFetch_set t.tasks i TaskPhase.inFetch TaskPhase.pending hi
      simp only [inFlight] at ih
      simp at hc
      show t.sem - 1 + countInFetch (t.tasks.set i TaskPhase.inFetch) = MAX_CONCURRENT_REQUESTS
      omega
    | release i _ hi =>
      have hc := countInFetch_set t.tasks i TaskPhase.finished TaskPhase.inFetch hi
      simp only [inFlight] at ih
      simp at hc
      show t.sem + 1 + countInFetch (t.tasks.set i TaskPhase.finished) = MAX_CONCURRENT_REQUESTS
      omega

/-- C8.  Bounded concurrency: in every state the cooperative scheduler
can reach during a batch — tasks acquire the admission gate only when
its counter is positive, and release it when their fetch completes — the
number of in-flight detail fetches never exceeds
`MAX_CONCURRENT_REQUESTS = 5`. -/
theorem C8_bounded_concurrency (n : Nat) (s : SemState) (h : SemReachable n s) :
    inFlight s ≤ MAX_CONCURRENT_REQUESTS := by
  have := semInvariant h
  omega

/-- Witness for C8 at a concrete reachable state with one fetch in
flight. -/
theorem C8_witness :
    inFlight ⟨4, [TaskPhase.inFetch, TaskPhase.pending, TaskPhase.pending]⟩
      ≤ MAX_CONCURRENT_REQUESTS := by
  have r : SemReachable 3 ⟨4, [TaskPhase.inFetch, TaskPhase.pending, TaskPhase.pending]⟩ :=
    SemReachable.step SemReachable.init
      (SemStep.acquire 0 (initState 3) (by decide) (by decide))
  exact C8_bounded_concurrency 3 _ r

/-! ## Lemmas about the pattern engine -/

theorem leadsWith_mem : ∀ (p t : List Char), leadsWith p t = true → ∀ c ∈ p, c ∈ t := by
  intro p
  induction p with
  | nil => intro t h c hc; simp at hc
  | cons a as ih =>
    intro t h c hc
    cases t with
    | nil => simp [leadsWith] at h
    | cons b bs =>
      simp only [leadsWith, Bool.and_eq_true, beq_iff_eq] at h
      obtain ⟨hab, h2⟩ := h
      rcases List.mem_cons.mp hc with h1 | h1
      · subst h1; subst hab; exact List.mem_cons_self _ _
      · exact List.mem_cons_of_mem _ (ih bs h2 c h1)

theorem leadsWith_false_of_missing {p t : List Char} {c : Char}
    (hcp : c ∈ p) (hct : c ∉ t) : leadsWith p t = false := by
  cases hl : leadsWith p t
  · rfl
  · exact absurd (leadsWith_mem p t hl c hcp) hct

theorem reSearch_miss {pre suf : List Char} {c : Char} {rest : List Char}
    (h : leadsWith pre (c :: rest) = false) :
    reSearch pre suf (c :: rest) = reSearch pre suf rest := by
  simp [reSearch, h]

theorem reSearch_hit {pre suf : List Char} {s g : List Char}
    (h1 : leadsWith pre s = true) (h2 : groupFrom suf [] (s.drop pre.length) = some g) :
    reSearch pre suf s = some g := by
  cases s with
  | nil => simp [groupFrom] at h2
  | cons c rest => simp [reSearch, h1, h2]

theorem reSearch_none_of_noSlash {pre suf : List Char} (hp : '/' ∈ pre) :
    ∀ t : List Char, '/' ∉ t → reSearch pre suf t = none := by
  intro t
  induction t with
  | nil => intro _; rfl
  | cons c rest ih =>
    intro hsl
    rw [reSearch_miss (leadsWith_false_of_missing hp hsl)]
    exact ih (fun hm => hsl (List.mem_cons_of_mem _ hm))

theorem leadsWith_false_append {l : List Char} : ∀ {d p : List Char},
    leadsWith d p = false → leadsWith p d = false → leadsWith p (d ++ l) = false := by
  intro d
  induction d with
  | nil => intro p h1 _; simp [leadsWith] at h1
  | cons a as ih =>
    intro p h1 h2
    cases p with
    | nil => simp [leadsWith] at h2
    | cons b bs =>
      simp only [List.cons_append, leadsWith]
      by_cases hab : b = a
      · subst hab
        simp only [leadsWith, beq_self_eq_true, Bool.true_and] at h1 h2 ⊢
        exact ih h1 h2
      · simp [hab]

theorem allSuffixes_tail {c : Char} {s : List Char} {d : List Char}
    (h : d ∈ allSuffixes s) : d ∈ allSuffixes (c :: s) :=
  List.mem_cons_of_mem _ h

theorem reSearch_append_none {pre suf : List Char} (hp : '/' ∈ pre) :
    ∀ (s2 l : List Char), '/' ∉ l →
    (∀ d ∈ allSuffixes s2, d = [] ∨ (leadsWith d pre = false ∧ leadsWith pre d = false)) →
    reSearch pre suf (s2 ++ l) = none := by
  intro s2
  induction s2 with
  | nil => intro l hl _; exact reSearch_none_of_noSlash hp l hl
  | cons c s2' ih =>
    intro l hl hall
    rcases hall (c :: s2') (List.mem_cons_self _ _) with hd | ⟨hd1, hd2⟩
    · simp at hd
    · have hmiss : leadsWith pre (c :: (s2' ++ l)) = false := leadsWith_false_append hd1 hd2
      rw [show (c :: s2') ++ l = c :: (s2' ++ l) from rfl, reSearch_miss hmiss]
      exact ih l hl (fun d hdm => hall d (allSuffixes_tail hdm))

theorem drop_length_append : ∀ (a b : List Char), (a ++ b).drop a.length = b := by
  intro a
  induction a with
  | nil => intro b; rfl
  | cons c as ih => intro b; simpa using ih b

theorem leadsWith_append_self : ∀ (p l : List Char), leadsWith p (p ++ l) = true := by
  intro p
  induction p with
  | nil => intro l; rfl
  | cons a as ih => intro l; simp [leadsWith, ih]

theorem occursIn_head_false {pat t : List Char} (h : occursIn pat t = false) :
    leadsWith pat t = false := by
  cases t with
  | nil => exact h
  | cons c rest =>
    simp only [occursIn, Bool.or_eq_false_iff] at h
    exact h.1

theorem occursIn_tail_false {pat : List Char} {c : Char} {rest : List Char}
    (h : occursIn pat (c :: rest) = false) : occursIn pat rest = false := by
  simp only [occursIn, Bool.or_eq_false_iff] at h
  exact h.2

theorem groupFrom_all (suf : List Char) : ∀ (t acc : List Char), t ≠ [] →
    '/' ∉ t → occursIn suf t = false → endsWithNl t = false →
    groupFrom suf acc t = some (acc ++ t) := by
  intro t
  induction t with
  | nil => intro acc h; exact absurd rfl h
  | cons c rest ih =>
    intro acc _ hsl hocc hnl
    have hc : (c == '/') = false := by
      simp only [beq_eq_false_iff_ne, ne_eq]
      intro hcc
      exact hsl (hcc ▸ List.mem_cons_self _ _)
    simp only [groupFrom, hc, Bool.false_eq_true, if_false]
    cases rest with
    | nil => simp [dollarHere]
    | cons d rest' =>
      have hlead : leadsWith suf (d :: rest') = false :=
        occursIn_head_false (occursIn_tail_false hocc)
      have hdol : dollarHere (d :: rest') = false := by
        cases rest' with
        | nil =>
          show (d == '\n') = false
          have : endsWithNl [d] = false := hnl
          exact this
        | cons e rest'' => rfl
      rw [hlead, hdol]
      simp only [Bool.or_self, Bool.false_eq_true, if_false]
      rw [ih (acc ++ [c]) (by simp) (fun hm => hsl (List.mem_cons_of_mem _ hm))
        (occursIn_tail_false hocc) hnl]
      simp

theorem groupFrom_isSome (suf : List Char) : ∀ (t acc : List Char), t ≠ [] →
    '/' ∉ t → ∃ g, groupFrom suf acc t = some g := by
  intro t
  induction t with
  | nil => intro acc h; exact absurd rfl h
  | cons c rest ih =>
    intro acc _ hsl
    have hc : (c == '/') = false := by
      simp only [beq_eq_false_iff_ne, ne_eq]
      intro hcc
      exact hsl (hcc ▸ List.mem_cons_self _ _)
    simp only [groupFrom, hc, Bool.false_eq_true, if_false]
    by_cases hcond : (leadsWith suf rest || dollarHere rest) = true
    · rw [if_pos hcond]; exact ⟨acc ++ [c], rfl⟩
    · rw [if_neg hcond]
      refine ih (acc ++ [c]) ?_ (fun hm => hsl (List.mem_cons_of_mem _ hm))
      intro hrest
      subst hrest
      simp [dollarHere] at hcond

theorem slash_mem_pre1 : '/' ∈ pre1 := by decide

theorem pre2_suffixes_vs_pre1 :
    ∀ d ∈ allSuffixes pre2, d = [] ∨ (leadsWith d pre1 = false ∧ leadsWith pre1 d = false) := by
  decide

/-! ## Claim C10 -/

/-- C10 counterexample.  The slug `"ab\n"` is non-empty, slash-free and
does not contain the documented tail `-dr-m-tupy-consultation`, yet the
extraction does NOT return the title-cased whole slug: the `$`
alternative of pattern 1 matches just before the trailing newline, so
the captured group is `"ab"` and the result is `"Ab"`, not `"Ab\n"`. -/
theorem C10_counterexample :
    slugNl ≠ [] ∧ '/' ∉ slugNl ∧ occursIn suf1 slugNl = false
    ∧ extractCore (pre1 ++ slugNl) ≠ some (storeTransform slugNl)
    ∧ extractCore (pre1 ++ slugNl) = some "Ab".data := by
  exact ⟨by decide, by decide, by decide, by decide, by decide⟩

/-- C10 (amended).  For a booking URL that is one of the two known hosts
followed by a non-empty, slash-free slug in which the host's documented
trailing segment does not occur and which does not end in a newline,
extraction returns the slug with hyphens replaced by spaces and each
word title-cased; moreover, for ANY non-empty slash-free slug — with or
without the documented tail — a store name is produced (never omitted
merely because the suffix convention is missing). -/
theorem C10_suffix_optional_extraction (slug : List Char) (hne : slug ≠ [])
    (hsl : '/' ∉ slug) :
    (occursIn suf1 slug = false → endsWithNl slug = false →
        extractCore (pre1 ++ slug) = some (storeTransform slug))
    ∧ (occursIn suf2 slug = false → endsWithNl slug = false →
        extractCore (pre2 ++ slug) = some (storeTransform slug))
    ∧ (extractCore (pre1 ++ slug)).isSome = true
    ∧ (extractCore (pre2 ++ slug)).isSome = true := by
  have hmiss : reSearch pre1 suf1 (pre2 ++ slug) = none :=
    reSearch_append_none slash_mem_pre1 pre2 slug hsl pre2_suffixes_vs_pre1
  refine ⟨?_, ?_, ?_, ?_⟩
  · intro hocc hnl
    have hg : groupFrom suf1 [] slug = some ([] ++ slug) :=
      groupFrom_all suf1 slug [] hne hsl hocc hnl
    have hhit : reSearch pre1 suf1 (pre1 ++ slug) = some ([] ++ slug) :=
      reSearch_hit (leadsWith_append_self pre1 slug)
        (by rw [drop_length_append]; exact hg)
    simp [extractCore, hhit]
  · intro hocc hnl
    have hg : groupFrom suf2 [] slug = some ([] ++ slug) :=
      groupFrom_all suf2 slug [] hne hsl hocc hnl
    have hhit : reSearch pre2 suf2 (pre2 ++ slug) = some ([] ++ slug) :=
      reSearch_hit (leadsWith_append_self pre2 slug)
        (by rw [drop_length_append]; exact hg)
    simp [extractCore, hmiss, hhit]
  · obtain ⟨g, hg⟩ := groupFrom_isSome suf1 slug [] hne hsl
    have hhit : reSearch pre1 suf1 (pre1 ++ slug) = some g :=
      reSearch_hit (leadsWith_append_self pre1 slug)
        (by rw [drop_length_append]; exact hg)
    simp [extractCore, hhit]
  · obtain ⟨g, hg⟩ := groupFrom_isSome suf2 slug [] hne hsl
    have hhit : reSearch pre2 suf2 (pre2 ++ slug) = some g :=
      reSearch_hit (leadsWith_append_self pre2 slug)
        (by rw [drop_length_append]; exact hg)
    simp [extractCore, hmiss, hhit]

/-- Witness for the amended C10 at the concrete slug `"acme-shop"`. -/
theorem C10_witness :
    extractCore (pre1 ++ slugW) = some (storeTransform slugW)
    ∧ extractCore (pre2 ++ slugW) = some (storeTransform slugW)
    ∧ (extractCore (pre1 ++ slugW)).isSome = true := by
  have h := C10_suffix_optional_extraction slugW (by decide) (by decide)
  exact ⟨h.1 (by decide) (by decide), h.2.1 (by decide) (by decide), h.2.2.1⟩

end SyncDayschedule
